import Mathlib

/-!
Shallow embedding of the region-highlight resolution and rendering pipeline of
the multi-organ XAI viewer (frontend/components/HeartMV.tsx and BrainMV.tsx),
together with proofs about the claims of the specification.

Conventions of the embedding:
* JavaScript numbers are modelled as rationals (`ℚ`); the score maps carry a
  `JsVal` so that NaN and non-number entries are representable.
* JavaScript `Map` and plain-object records are modelled as association lists
  in insertion/iteration order; `Map.get` is `List.lookup`-style lookup.
* Character classes: the source uses the Unicode classes `\p{L}\p{N}` and
  Unicode-aware `toLowerCase`/`trim`; the embedding uses Lean's ASCII
  `Char.isAlphanum`, `Char.toLower` and `Char.isWhitespace`, which agree with
  the source on all ASCII data (all data appearing in the theorems is ASCII).
-/

namespace XaiAr

/-! ## JS string helpers (HeartMV.tsx: `norm`, `variants`) -/

/-- One character of the class `[\p{L}\p{N}]` of `norm` (ASCII fragment). -/
def isAlnumChar (c : Char) : Bool := c.isAlphanum

/-- JS `String.prototype.trim`: drop leading and trailing whitespace. -/
def jsTrim (s : String) : String :=
  String.mk
    (((s.data.dropWhile Char.isWhitespace).reverse.dropWhile
        Char.isWhitespace).reverse)

/-- Core of `norm`: lower-case, and collapse every run of non-letter/non-digit
characters into a single space.  The flag records whether the previous emitted
character was a collapsing space (initially true, so no leading space is
emitted).  This is the composition of the source's
`.toLowerCase().replace(/[^\p{L}\p{N}]+/gu, " ").replace(/\s+/g, " ")`
(after the first replace there are no adjacent spaces, so the second replace
is the identity; the leading/trailing spaces are handled by `norm` below). -/
def squashChars (prevSpace : Bool) : List Char → List Char
  | [] => []
  | c :: cs =>
    if isAlnumChar c then c.toLower :: squashChars false cs
    else if prevSpace then squashChars true cs
    else ' ' :: squashChars true cs

/-- HeartMV.tsx `norm`: normalize a name for fuzzy comparisons:
`s.toLowerCase().replace(/[^\p{L}\p{N}]+/gu, " ").replace(/\s+/g, " ").trim()`. -/
def norm (s : String) : String :=
  String.mk (((squashChars true s.data).reverse.dropWhile (· = ' ')).reverse)

/-- HeartMV.tsx `variants`: `base.replace(/\.(t|j)$/i, "")` — strip a trailing
`.t` or `.j` (case-insensitive). -/
def stripDotSuffix (s : String) : String :=
  match s.data.reverse with
  | c :: '.' :: rest =>
    if c = 't' ∨ c = 'T' ∨ c = 'j' ∨ c = 'J' then String.mk rest.reverse else s
  | _ => s

/-- HeartMV.tsx `variants`: `base.replace(/\s*\(mesh\)\s*$/i, "")` — strip a
trailing `(mesh)` annotation (case-insensitive), together with the whitespace
around it. -/
def stripMeshSuffix (s : String) : String :=
  let r := s.data.reverse.dropWhile Char.isWhitespace
  match r with
  | ')' :: c1 :: c2 :: c3 :: c4 :: '(' :: rest =>
    if c1.toLower = 'h' ∧ c2.toLower = 's' ∧ c3.toLower = 'e' ∧ c4.toLower = 'm' then
      String.mk ((rest.dropWhile Char.isWhitespace).reverse)
    else s
  | _ => s

/-- Insertion-ordered deduplication, as performed by `new Set([...])` followed
by spreading: keeps the first occurrence of each element. -/
def dedupKeepFirst (seen : List String) : List String → List String
  | [] => []
  | x :: xs =>
    if x ∈ seen then dedupKeepFirst seen xs
    else x :: dedupKeepFirst (x :: seen) xs

/-- HeartMV.tsx `variants`: generate a few common export variants of a raw
target name (the base, the base without the trailing dot-suffix, without the
trailing `(mesh)` annotation, and without both), deduplicated in order. -/
def variants (raw : String) : List String :=
  let base := jsTrim raw
  dedupKeepFirst []
    [base, stripDotSuffix base, stripMeshSuffix base,
     stripMeshSuffix (stripDotSuffix base)]

/-- JS `String.prototype.includes` on character lists: `containsSub sub l`
is true iff `sub` occurs as a contiguous substring of `l` (the empty string
is a substring of everything, as in JS). -/
def containsSub (sub : List Char) : List Char → Bool
  | [] => sub.isEmpty
  | c :: tl => sub.isPrefixOf (c :: tl) || containsSub sub tl

/-- JS `s.includes(sub)`. -/
def jsIncludes (s sub : String) : Bool := containsSub sub.data s.data

/-! ## Score Selector (HeartMV.tsx: the `affected` memo) -/

/-- A JavaScript value sitting in a score map: a (non-NaN) number, NaN, or a
value of some other runtime type. -/
inductive JsVal where
  | num (q : ℚ)
  | nan
  | other
deriving DecidableEq

/-- A score map as iterated by `Object.entries(segmentScores)`: key/value
pairs in object iteration order (object keys are unique). -/
abbrev ScoreMap := List (String × JsVal)

/-- One element of the `affected` output:
`{ id: sid, score: clamped, label: `AHA${sid}` }`. -/
structure Affected where
  id : String
  score : ℚ
  label : String
deriving DecidableEq

/-- `Math.max(0, Math.min(1, x))`. -/
def clamp01 (q : ℚ) : ℚ := max 0 (min 1 q)

/-- The `.filter(([, s]) => typeof s === "number" && !Number.isNaN(s))` stage:
keeps exactly the numeric, non-NaN entries (carrying their numeric value). -/
def numericPairs (scores : ScoreMap) : List (String × ℚ) :=
  scores.filterMap fun p =>
    match p.2 with
    | JsVal.num q => some (p.1, q)
    | _ => none

/-- Stable insertion of a pair into a list sorted descending by score: the
inserted pair goes before the first element with a lower-or-equal score.
Elements of the input list appear earlier in the original array, so placing
the new element in front of equal scores reproduces the stable JS sort. -/
def insertDesc (p : String × ℚ) : List (String × ℚ) → List (String × ℚ)
  | [] => [p]
  | q :: qs => if q.2 ≤ p.2 then p :: q :: qs else q :: insertDesc p qs

/-- The `.sort((a, b) => b[1] - a[1])` stage: JS `Array.prototype.sort` is a
stable sort, and a stable descending-by-score sort is uniquely determined;
this insertion sort computes it. -/
def sortDesc : List (String × ℚ) → List (String × ℚ)
  | [] => []
  | p :: ps => insertDesc p (sortDesc ps)

/-- HeartMV.tsx `affected`: filter out non-numeric/NaN entries, sort
descending by score (stable), take the first `topK`, drop entries below the
threshold, then emit `{id, score: Math.max(0, Math.min(1, score)), label}`. -/
def affected (scores : ScoreMap) (topK : ℕ) (threshold : ℚ) : List Affected :=
  (((sortDesc (numericPairs scores)).take topK).filter
      fun p => threshold ≤ p.2).map
    fun p => ⟨p.1, clamp01 p.2, "AHA" ++ p.1⟩

/-! ## Mapping table and the Target map (HeartMV.tsx: `Mapping`, `targets`) -/

/-- HeartMV.tsx `type Mapping = { segments: Record<string, string[]> }`,
with the record in iteration order. -/
structure Mapping where
  segments : List (String × List String)
deriving DecidableEq

/-- Lookup in an association list modelling `Map.get` / record access
(keys are unique by construction of `alSet`). -/
def alGet (m : List (String × ℚ)) (k : String) : Option ℚ :=
  match m with
  | [] => none
  | p :: rest => if p.1 = k then some p.2 else alGet rest k

/-- JS `Map.prototype.set`: replace the value of an existing key in place,
otherwise append the new binding (insertion order is preserved). -/
def alSet (m : List (String × ℚ)) (k : String) (v : ℚ) : List (String × ℚ) :=
  match m with
  | [] => [(k, v)]
  | p :: rest => if p.1 = k then (k, v) :: rest else p :: alSet rest k v

/-- Inner loop of `targets`: for each raw name in a segment's target list,
`const name = String(raw || "").trim(); if (!name) continue;
map.set(name, Math.max(score, map.get(name) ?? 0));`.
(`raw` is a string here, so `String(raw || "")` is `raw` itself, with the
empty string mapped to the empty string.) -/
def addTargets (score : ℚ) (raws : List String) (m : List (String × ℚ)) :
    List (String × ℚ) :=
  match raws with
  | [] => m
  | raw :: rest =>
    let name := jsTrim raw
    if name = "" then addTargets score rest m
    else addTargets score rest (alSet m name (max score ((alGet m name).getD 0)))

/-- HeartMV.tsx `targets`: build the raw-name → intensity map from the
`affected` selection and the mapping; `if (!mapping) return map` makes the
map empty when the mapping is unavailable. -/
def targets (aff : List Affected) (mapping : Option Mapping) :
    List (String × ℚ) :=
  match mapping with
  | none => []
  | some mp =>
    aff.foldl (fun m a => addTargets a.score ((mp.segments.lookup a.id).getD []) m) []

/-! ## Mapping document loading (HeartMV.tsx: the mapping-fetch effect) -/

/-- A JSON document, as produced by `await r.json()`. -/
inductive Json where
  | str (s : String)
  | num (q : ℚ)
  | bool (b : Bool)
  | null
  | arr (items : List Json)
  | obj (fields : List (String × Json))

/-- The numeric value of a decimal digit character. -/
def digitsToNat (l : List Char) : ℕ :=
  l.foldl (fun acc c => 10 * acc + (c.toNat - 48)) 0

/-- A canonical array-index string, as recognised by JS property lookup on
strings and arrays: a run of digits with no leading zero (except `"0"`
itself).  Non-canonical numeric strings (e.g. `"01"`) are ordinary property
names and hit no index. -/
def parseIndex (k : String) : Option ℕ :=
  match k.data with
  | [] => none
  | c :: rest =>
    if (c :: rest).all Char.isDigit ∧ (c = '0' → rest = []) then
      some (digitsToNat (c :: rest))
    else none

/-- JS property read `o[k]` as the pipeline performs it: an object yields its
field (or `undefined`, here `none`, when missing); strings and arrays support
canonical numeric indexing (`"LV"["1"]` is `"V"`) and `length`; index reads
on numbers and booleans yield `undefined`.  Reading a property of `null`
throws in JS, but the pipeline only ever reads from a possibly-null value
through optional chaining (`segments?.[id]`), whose result for `null` is
`undefined`; `none` models that.  (Prototype methods of strings and arrays
are not modelled; no mapping region id is such a name.) -/
def jsonGet (j : Json) (k : String) : Option Json :=
  match j with
  | Json.obj fields => fields.lookup k
  | Json.str s =>
    if k = "length" then some (Json.num (s.data.length : ℚ))
    else
      match parseIndex k with
      | some i => (s.data[i]?).map fun c => Json.str (String.mk [c])
      | none => none
  | Json.arr items =>
    if k = "length" then some (Json.num (items.length : ℚ))
    else
      match parseIndex k with
      | some i => items[i]?
      | none => none
  | _ => none

/-- HeartMV.tsx mapping-fetch effect: `const m = (await r.json()) as Mapping;
setMapping(m)` on success — the parsed document is stored as-is, with no
shape validation or normalization — and on fetch/parse failure only
`console.error` runs, so the mapping state stays `null`. -/
def loadMapping (r : Except String Json) : Option Json :=
  match r with
  | Except.ok j => some j
  | Except.error _ => none

/-- The value of `segments[id] ?? []` once `segments` is at hand:
a missing entry (`undefined`) or a `null` entry is replaced by `[]` by the
nullish-coalescing operator; any other value passes through unchanged. -/
def entryValue (segs : Json) (id : String) : Json :=
  match jsonGet segs id with
  | none => Json.arr []
  | some Json.null => Json.arr []
  | some v => v

/-- HeartMV.tsx `const entries = mapping.segments?.[id] ?? [];` — if the
document has no `segments` property (`undefined`), the optional chain
short-circuits and `?? []` yields `[]`; otherwise the entry for `id` is read
off the `segments` value (whatever its runtime type). -/
def segEntries (m : Json) (id : String) : Json :=
  match jsonGet m "segments" with
  | none => Json.arr []
  | some segs => entryValue segs id

/-- JS `for (const raw of entries)`: arrays iterate their elements, strings
iterate their characters (as 1-character strings); any other value — number,
boolean, `null`, plain object — is not iterable and the loop throws a
TypeError. -/
def jsIterate : Json → Except String (List Json)
  | Json.arr items => Except.ok items
  | Json.str s => Except.ok (s.data.map fun c => Json.str (String.mk [c]))
  | _ => Except.error "TypeError: value is not iterable"

/-- HeartMV.tsx consumption of the loaded document: the sequence of raw
values the target-building loop iterates for segment `id` — or the TypeError
the loop raises when `segments[id]` is a non-iterable value. -/
def segItems (m : Json) (id : String) : Except String (List Json) :=
  jsIterate (segEntries m id)

/-! ## Name Matcher (HeartMV.tsx: `resolveTarget`) -/

/-- The variants tier: `for (const v of variants(raw)) { const hit =
nameIndex.get(v); if (hit) return hit; }`. -/
def variantsHit (idx : List (String × α)) : List String → Option α
  | [] => none
  | v :: vs =>
    match idx.lookup v with
    | some hit => some hit
    | none => variantsHit idx vs

/-- The fuzzy-tier acceptance test for a normalized query `t` against a
normalized key `n`: `n === t || n.includes(t) || t.includes(n)`. -/
def fuzzyAccept (n t : String) : Bool :=
  n = t || jsIncludes n t || jsIncludes t n

/-- The fuzzy tier: walk the index in iteration order and return the first
entry whose normalized key matches the normalized query. -/
def fuzzyHit (t : String) : List (String × α) → Option α
  | [] => none
  | (name, obj) :: rest =>
    if fuzzyAccept (norm name) t then some obj else fuzzyHit t rest

/-- HeartMV.tsx `resolveTarget`: exact match first, then the filename
variants, then the normalized fuzzy match; `null` (here `none`) if no tier
matches. -/
def resolveTarget (idx : List (String × α)) (raw : String) : Option α :=
  match idx.lookup raw with
  | some exact => some exact
  | none =>
    match variantsHit idx (variants raw) with
    | some hit => some hit
    | none => fuzzyHit (norm raw) idx

/-! ## Scene graph and the Highlight Engine pass (HeartMV.tsx: `fadeMat`,
`lightMat`, `highlightNode`, and the fade-then-highlight effect) -/

/-- A THREE.Object3D: a name, whether it is a mesh, the identifiers of its
materials (`mesh.material`, one or several; `null` slots are skipped by the
`mtl && ...` guards in the source and are not represented), and its
children.  `traverse` visits the object itself and then its children,
depth-first. -/
inductive Obj where
  | mk (name : String) (isMesh : Bool) (mats : List ℕ) (children : List Obj)

mutual

/-- The material ids met by `obj.traverse` when visiting the meshes under
(and including) `obj`, in traversal order. -/
def Obj.meshMats : Obj → List ℕ
  | Obj.mk _ isMesh mats children =>
    (if isMesh then mats else []) ++ meshMatsList children

/-- `meshMats` over a list of children, in order. -/
def meshMatsList : List Obj → List ℕ
  | [] => []
  | o :: os => o.meshMats ++ meshMatsList os

end

/-- The RenderState of one material: exactly the fields the pass mutates
(`transparent`, `opacity`, `color`, `emissive`). -/
structure MatState where
  transparent : Bool
  opacity : ℚ
  color : ℚ × ℚ × ℚ
  emissive : ℚ × ℚ × ℚ
deriving DecidableEq

/-- HeartMV.tsx `fadeMat`: `transparent = true; opacity = opacity;
emissive.setRGB(0,0,0); color.setRGB(1,1,1)`.  Every RenderState field is
written, so the resulting state does not depend on the previous one. -/
def fadeMat (opacity : ℚ) : MatState :=
  ⟨true, opacity, (1, 1, 1), (0, 0, 0)⟩

/-- HeartMV.tsx `lightMat`: clamp the intensity, then `transparent = false;
opacity = 1; color.setRGB(1, 0.25, 0.25);
emissive.setRGB(0.6*t, 0.1*t, 0.1*t)`. -/
def lightMat (intensity : ℚ) : MatState :=
  let t := clamp01 intensity
  ⟨false, 1, (1, 1/4, 1/4), (6/10 * t, 1/10 * t, 1/10 * t)⟩

/-- One material-mutation call recorded during a pass. -/
inductive Ev where
  | fade (mat : ℕ)
  | light (mat : ℕ) (w : ℚ)
deriving DecidableEq

/-- Whether an event is a dim (fade) call. -/
def Ev.isFade : Ev → Bool
  | Ev.fade _ => true
  | Ev.light _ _ => false

/-- Whether an event is a highlight call. -/
def Ev.isLight : Ev → Bool
  | Ev.fade _ => false
  | Ev.light _ _ => true

/-- Step 2 of the pass (`highlightNode` applied to each resolved target):
for each `(raw, w)` of `targets.entries()` in insertion order, resolve the
name; on a hit, `lightMat` every mesh material under the resolved node;
a miss emits nothing (it is only collected into the `misses` diagnostic). -/
def highlightTrace (idx : List (String × Obj)) (tgts : List (String × ℚ)) :
    List Ev :=
  tgts.flatMap fun p =>
    match resolveTarget idx p.1 with
    | some node => node.meshMats.map fun m => Ev.light m p.2
    | none => []

/-- The fade-then-highlight effect of HeartScene: first `fadeMat` every mesh
material of the whole scene (unconditionally), then highlight the resolved
targets. -/
def passTrace (root : Obj) (idx : List (String × Obj))
    (tgts : List (String × ℚ)) : List Ev :=
  root.meshMats.map Ev.fade ++ highlightTrace idx tgts

/-- Apply one recorded mutation to the material states. -/
def applyEv (opacity : ℚ) (st : ℕ → MatState) : Ev → ℕ → MatState
  | Ev.fade m => fun x => if x = m then fadeMat opacity else st x
  | Ev.light m w => fun x => if x = m then lightMat w else st x

/-- Run one full Highlight Engine pass over the material states. -/
def runPass (root : Obj) (idx : List (String × Obj))
    (tgts : List (String × ℚ)) (opacity : ℚ) (st : ℕ → MatState) :
    ℕ → MatState :=
  (passTrace root idx tgts).foldl (applyEv opacity) st

/-- The material a recorded mutation writes to. -/
def Ev.target : Ev → ℕ
  | Ev.fade m => m
  | Ev.light m _ => m

/-- The state a recorded mutation leaves its material in (both `fadeMat` and
`lightMat` write every RenderState field, so this is independent of the
previous state). -/
def Ev.written (opacity : ℚ) : Ev → MatState
  | Ev.fade _ => fadeMat opacity
  | Ev.light _ w => lightMat w

/-! ## BrainMV.tsx: queued highlight requests (queue-and-flush) -/

/-- BrainMV.tsx `SingleDetail`: `{ label_id: number, label_name: string }`. -/
structure SingleDetail where
  label_id : ℤ
  label_name : String
deriving DecidableEq

/-- BrainMV.tsx `ManyDetail`:
`{ label_ids?: number[], label_names?: string[], exclusive?: boolean }`. -/
structure ManyDetail where
  label_ids : Option (List ℤ)
  label_names : Option (List String)
  exclusive : Option Bool
deriving DecidableEq

/-- An external stimulus of the brain viewer: a `highlight-roi` event, a
`highlight-rois` event, or the model's `load` event. -/
inductive BrainEv where
  | singleReq (d : SingleDetail)
  | manyReq (d : ManyDetail)
  | load
deriving DecidableEq

/-- One performed highlight application (an invocation of
`highlightByNames` on behalf of the given request). -/
inductive AppliedReq where
  | single (d : SingleDetail)
  | many (d : ManyDetail)
deriving DecidableEq

/-- The queueing state of BrainMV: whether the scene-graph mutation API
(`model.getNodeByName` / `model.setNodeProperties`) is available, the two
pending refs, and the ordered log of highlight applications. -/
structure BrainState where
  ready : Bool
  pendingSingle : Option SingleDetail
  pendingMany : Option ManyDetail
  applied : List AppliedReq
deriving DecidableEq

/-- The state before the model has loaded: no API, nothing pending. -/
def brainInit : BrainState := ⟨false, none, none, []⟩

/-- One stimulus, as handled by BrainMV.tsx:
* `highlight-roi`: if the API is missing, `pendingSingle.current = detail`
  (overwriting any previous pending single); otherwise highlight now.
* `highlight-rois`: if the API is missing, `pendingMany.current = detail`;
  otherwise highlight now.
* `load` (`onLoad`): the API becomes available; then flush: a pending many
  request, if any, is taken and applied; *else* a pending single request,
  if any, is taken and applied; a flushed ref is cleared first. -/
def brainStep (st : BrainState) : BrainEv → BrainState
  | BrainEv.singleReq d =>
    if st.ready then { st with applied := st.applied ++ [AppliedReq.single d] }
    else { st with pendingSingle := some d }
  | BrainEv.manyReq d =>
    if st.ready then { st with applied := st.applied ++ [AppliedReq.many d] }
    else { st with pendingMany := some d }
  | BrainEv.load =>
    match st.pendingMany with
    | some p =>
      { st with ready := true, pendingMany := none,
                applied := st.applied ++ [AppliedReq.many p] }
    | none =>
      match st.pendingSingle with
      | some s =>
        { st with ready := true, pendingSingle := none,
                  applied := st.applied ++ [AppliedReq.single s] }
      | none => { st with ready := true }

/-- Run a sequence of stimuli from a state. -/
def brainRun (st : BrainState) (evs : List BrainEv) : BrainState :=
  evs.foldl brainStep st

/-! ## Derived notions used by the statements -/

/-- `a` contributes intensity to raw target `name`: the mapping row of `a.id`
contains a raw entry whose trimmed form is `name`, and `name` is nonempty
(empty names are skipped by `if (!name) continue`). -/
def contributes (mp : Mapping) (a : Affected) (name : String) : Prop :=
  name ≠ "" ∧ ∃ raw ∈ (mp.segments.lookup a.id).getD [], jsTrim raw = name

/-- The scores of the selected entries whose mapping row mentions `name`
(in selection order); used to characterize the fan-in of `targets`. -/
def collectScores (mp : Mapping) (name : String) (aff : List Affected) :
    List ℚ :=
  aff.filterMap fun a =>
    if ((mp.segments.lookup a.id).getD []).any (fun raw => jsTrim raw = name) then
      some a.score
    else none

/-- A mapping document in the spec's authored shape (a):
RegionId → list of `{target, side?}` records. -/
def shapeA : Json :=
  Json.obj [("1", Json.arr
    [Json.obj [("target", Json.str "LV"), ("side", Json.str "L")]])]

/-- A mapping document in the spec's authored shape (b):
`{segments: RegionId → list of raw-name strings}`. -/
def shapeB : Json :=
  Json.obj [("segments", Json.obj [("1", Json.arr [Json.str "LV"])])]

/-- A malformed mapping document whose segment entry is a string: iterating
it yields its characters as target names. -/
def shapeStr : Json :=
  Json.obj [("segments", Json.obj [("1", Json.str "XY")])]

/-- A malformed mapping document whose segment entry is a number: iterating
it throws a TypeError. -/
def shapeNum : Json :=
  Json.obj [("segments", Json.obj [("1", Json.num 42)])]

/-- A concrete single-ROI request. -/
def singleEx : SingleDetail := ⟨17, "Hippocampus"⟩

/-- A concrete many-ROI request. -/
def manyEx : ManyDetail := ⟨some [2, 3], none, some true⟩

/-! ## Lemmas about the Highlight Engine pass -/

theorem highlightTrace_all_light (idx : List (String × Obj))
    (tgts : List (String × ℚ)) :
    ∀ e ∈ highlightTrace idx tgts, e.isLight = true := by
  intro e he
  rcases List.mem_flatMap.1 he with ⟨p, _, hp⟩
  rcases hres : resolveTarget idx p.1 with _ | node
  · rw [hres] at hp
    simp at hp
  · rw [hres] at hp
    rcases List.mem_map.1 hp with ⟨m, _, rfl⟩
    rfl

theorem highlightTrace_nil (idx : List (String × Obj)) :
    highlightTrace idx [] = [] := rfl

theorem foldl_applyEv_untouched (opacity : ℚ) (tr : List Ev) :
    ∀ (st : ℕ → MatState) (m : ℕ), m ∉ tr.map Ev.target →
      tr.foldl (applyEv opacity) st m = st m := by
  induction tr with
  | nil => intro st m _; rfl
  | cons e tr ih =>
    intro st m hm
    simp only [List.map_cons, List.mem_cons, not_or] at hm
    rw [List.foldl_cons, ih _ m hm.2]
    cases e with
    | fade mat =>
      simp only [applyEv]
      rw [if_neg]
      intro h
      exact hm.1 (by simpa [Ev.target] using h)
    | light mat w =>
      simp only [applyEv]
      rw [if_neg]
      intro h
      exact hm.1 (by simpa [Ev.target] using h)

theorem foldl_applyEv_congr (opacity : ℚ) (tr : List Ev) :
    ∀ (st st' : ℕ → MatState),
      (∀ m, m ∉ tr.map Ev.target → st m = st' m) →
      ∀ m, tr.foldl (applyEv opacity) st m = tr.foldl (applyEv opacity) st' m := by
  induction tr with
  | nil =>
    intro st st' h m
    exact h m (by simp)
  | cons e tr ih =>
    intro st st' h m
    rw [List.foldl_cons, List.foldl_cons]
    refine ih _ _ ?_ m
    intro m' hm'
    by_cases hme : m' = e.target
    · subst hme
      cases e with
      | fade mat => simp [applyEv, Ev.target]
      | light mat w => simp [applyEv, Ev.target]
    · have hnotin : m' ∉ (e :: tr).map Ev.target := by
        simp only [List.map_cons, List.mem_cons, not_or]
        exact ⟨hme, hm'⟩
      have hst := h m' hnotin
      cases e with
      | fade mat =>
        simp only [applyEv]
        rw [if_neg, if_neg, hst]
        · intro hc; exact hme (by simpa [Ev.target] using hc)
        · intro hc; exact hme (by simpa [Ev.target] using hc)
      | light mat w =>
        simp only [applyEv]
        rw [if_neg, if_neg, hst]
        · intro hc; exact hme (by simpa [Ev.target] using hc)
        · intro hc; exact hme (by simpa [Ev.target] using hc)

/-! ## C1: the pass dims everything before any highlight -/

/-- C1: in every Highlight Engine pass, the mutation trace starts with a dim
(`fadeMat`) call for every mesh material of the loaded asset, in traversal
order, and everything after that prefix is a highlight call; the dim sweep is
emitted unconditionally, in particular a pass with an empty Target map is
exactly the dim-all sweep. -/
theorem pass_dims_all_before_highlight (root : Obj) (idx : List (String × Obj))
    (tgts : List (String × ℚ)) :
    (passTrace root idx tgts).take root.meshMats.length
        = root.meshMats.map Ev.fade
    ∧ (∀ e ∈ (passTrace root idx tgts).drop root.meshMats.length,
        e.isLight = true)
    ∧ passTrace root idx [] = root.meshMats.map Ev.fade := by
  refine ⟨?_, ?_, ?_⟩
  · have hlen : root.meshMats.length = (root.meshMats.map Ev.fade).length := by
      rw [List.length_map]
    rw [passTrace, hlen, List.take_left]
  · intro e he
    have hlen : root.meshMats.length = (root.meshMats.map Ev.fade).length := by
      rw [List.length_map]
    rw [passTrace, hlen, List.drop_left] at he
    exact highlightTrace_all_light idx tgts e he
  · rw [passTrace, highlightTrace_nil, List.append_nil]

/-! ## C8: a full pass is idempotent -/

/-- C8: running the full fade-then-highlight pass twice with identical
inputs leaves every material in the same RenderState as running it once. -/
theorem pass_idempotent (root : Obj) (idx : List (String × Obj))
    (tgts : List (String × ℚ)) (opacity : ℚ) (st : ℕ → MatState) (m : ℕ) :
    runPass root idx tgts opacity (runPass root idx tgts opacity st) m
      = runPass root idx tgts opacity st m := by
  unfold runPass
  refine foldl_applyEv_congr opacity (passTrace root idx tgts) _ st ?_ m
  intro m' hm'
  exact foldl_applyEv_untouched opacity (passTrace root idx tgts) st m' hm'

/-! ## C4: a failed mapping load degrades to the empty table -/

theorem targets_empty_mapping (aff : List Affected) :
    targets aff (some ⟨[]⟩) = [] := by
  rw [targets]
  induction aff with
  | nil => rfl
  | cons a rest ih => simp [List.lookup, addTargets, ih]

/-- C4: when the mapping fetch or parse fails, the caller sees no error: the
mapping stays unavailable (`none`), every subsequent highlight pass builds an
empty Target map — exactly as with an empty table — emits zero highlight
calls, and the whole pass is just the dim-all sweep (all functions are total,
so no exception escapes). -/
theorem mapping_failure_no_highlights (e : String) (aff : List Affected)
    (root : Obj) (idx : List (String × Obj)) :
    loadMapping (Except.error e) = none
    ∧ targets aff none = []
    ∧ targets aff none = targets aff (some ⟨[]⟩)
    ∧ highlightTrace idx (targets aff none) = []
    ∧ passTrace root idx (targets aff none) = root.meshMats.map Ev.fade := by
  refine ⟨rfl, rfl, (targets_empty_mapping aff).symm, rfl, ?_⟩
  rw [targets, passTrace, highlightTrace_nil, List.append_nil]

/-! ## Lemmas about the Name Matcher -/

theorem containsSub_nil (l : List Char) : containsSub [] l = true := by
  cases l with
  | nil => rfl
  | cons c tl => simp [containsSub, List.isPrefixOf]

theorem variantsHit_eq_none {α : Type} (idx : List (String × α)) (vs : List String)
    (h : ∀ v ∈ vs, idx.lookup v = none) : variantsHit idx vs = none := by
  induction vs with
  | nil => rfl
  | cons v vs ih =>
    rw [variantsHit]
    rw [h v (List.mem_cons_self v vs)]
    exact ih fun v' hv' => h v' (List.mem_cons_of_mem v hv')

theorem fuzzyHit_isSome {α : Type} (t : String) (idx : List (String × α))
    (key : String) (v : α) (hmem : (key, v) ∈ idx)
    (hacc : fuzzyAccept (norm key) t = true) :
    (fuzzyHit t idx).isSome = true := by
  induction idx with
  | nil => cases hmem
  | cons p rest ih =>
    rw [fuzzyHit]
    by_cases hp : fuzzyAccept (norm p.1) t = true
    · rw [if_pos hp]
      rfl
    · rw [if_neg hp]
      rcases List.mem_cons.1 hmem with heq | htail
      · exact absurd (heq ▸ hacc : fuzzyAccept (norm p.1) t = true) hp
      · exact ih htail

theorem fuzzyHit_append {α : Type} (t : String) (pre rest : List (String × α))
    (h : ∀ p ∈ pre, fuzzyAccept (norm p.1) t = false) :
    fuzzyHit t (pre ++ rest) = fuzzyHit t rest := by
  induction pre with
  | nil => rfl
  | cons p ps ih =>
    obtain ⟨name, obj⟩ := p
    rw [List.cons_append, fuzzyHit]
    have hf := h (name, obj) (List.mem_cons_self _ _)
    rw [if_neg (by rw [hf]; exact Bool.false_ne_true)]
    exact ih fun p hp => h p (List.mem_cons_of_mem _ hp)

/-! ## C7: tier priority of the Name Matcher -/

/-- C7 counterexample: a query whose normalization equals the normalization
of some index key does *not* in general resolve to that key's node: the
fuzzy tier returns the first entry in index iteration order that passes the
substring test.  Against the index `["hip", "hippocampus l"]`, the query
"Hippocampus L" normalizes exactly to the second key, yet resolves to the
node of `"hip"` (whose normalized form is a substring of the query). -/
theorem resolve_norm_equal_other_node_cx :
    norm "Hippocampus L" = norm "hippocampus l"
    ∧ ("hippocampus l", 2) ∈ [("hip", 1), ("hippocampus l", 2)]
    ∧ resolveTarget [("hip", 1), ("hippocampus l", 2)] "Hippocampus L"
        = some 1 := by
  decide

/-- C7 amended: the matcher's tiers are tried in fixed priority order, so an
exact hit always wins: whenever the raw name is itself a key of the index,
the resolved node is that key's node.  A query whose normalization equals
the normalization of some index key never fails to resolve (the fuzzy tier
accepts that key, so some node is returned), and it resolves to *that key's
node* precisely when that key is the first index entry in iteration order to
pass the fuzzy test (first hit wins), the exact and variant tiers having
missed. -/
theorem resolveTarget_tier_priority_amended {α : Type}
    (idx pre post : List (String × α)) (raw key : String) (n v : α) :
    (idx.lookup raw = some n → resolveTarget idx raw = some n)
    ∧ ((key, v) ∈ idx → norm raw = norm key →
        (resolveTarget idx raw).isSome = true)
    ∧ (idx = pre ++ (key, v) :: post →
        idx.lookup raw = none →
        (∀ u ∈ variants raw, idx.lookup u = none) →
        (∀ p ∈ pre, fuzzyAccept (norm p.1) (norm raw) = false) →
        norm raw = norm key →
        resolveTarget idx raw = some v) := by
  refine ⟨?_, ?_, ?_⟩
  · intro h
    rw [resolveTarget, h]
  · intro hmem hnorm
    rw [resolveTarget]
    rcases hexact : idx.lookup raw with _ | exact
    · rcases hvar : variantsHit idx (variants raw) with _ | hit
      · have hacc : fuzzyAccept (norm key) (norm raw) = true := by
          rw [fuzzyAccept, hnorm]
          simp
        exact fuzzyHit_isSome (norm raw) idx key v hmem hacc
      · rfl
    · rfl
  · intro hsplit hexact hvar hpre hnorm
    rw [resolveTarget, hexact, variantsHit_eq_none idx (variants raw) hvar,
      hsplit]
    rw [fuzzyHit_append (norm raw) pre ((key, v) :: post) hpre, fuzzyHit]
    rw [if_pos]
    rw [fuzzyAccept, hnorm]
    simp

/-- C7 amended witness: the exact tier wins for a raw name that is itself a
key, and "Hippocampus L" against the one-entry index `["hippocampus l"]`
(where that key is trivially the first fuzzy hit) resolves — to exactly that
key's node. -/
theorem resolveTarget_tier_priority_amended_witness :
    resolveTarget [("Hippocampus.L", 5)] "Hippocampus.L" = some 5
    ∧ (resolveTarget [("hippocampus l", 7)] "Hippocampus L").isSome = true
    ∧ resolveTarget [("hippocampus l", 7)] "Hippocampus L" = some 7 :=
  ⟨(resolveTarget_tier_priority_amended [("Hippocampus.L", 5)] [] []
      "Hippocampus.L" "Hippocampus.L" 5 5).1 (by decide),
   (resolveTarget_tier_priority_amended [("hippocampus l", 7)] [] []
      "Hippocampus L" "hippocampus l" 7 7).2.1 (by decide) (by decide),
   (resolveTarget_tier_priority_amended [("hippocampus l", 7)] [] []
      "Hippocampus L" "hippocampus l" 7 7).2.2 (by decide) (by decide)
      (by decide) (by decide) (by decide)⟩

/-! ## C10: a name normalizing to the empty string fuzzy-matches the first
index entry -/

/-- C10: for a nonempty index, a raw name that misses the exact and variant
tiers and whose normalization is empty (only non-letter/non-digit characters)
is resolved by the fuzzy tier to the *first* node in index iteration order,
because the empty normalized query is a substring of every normalized key. -/
theorem empty_norm_resolves_to_first {α : Type} (first : String × α)
    (rest : List (String × α)) (raw : String)
    (hexact : (first :: rest).lookup raw = none)
    (hvar : ∀ v ∈ variants raw, (first :: rest).lookup v = none)
    (hnorm : norm raw = "") :
    resolveTarget (first :: rest) raw = some first.2 := by
  rw [resolveTarget, hexact, variantsHit_eq_none (first :: rest) (variants raw) hvar,
    hnorm]
  show fuzzyHit "" (first :: rest) = some first.2
  rw [fuzzyHit]
  rw [if_pos]
  rw [fuzzyAccept]
  have h1 : jsIncludes (norm first.1) "" = true := by
    rw [jsIncludes]
    exact containsSub_nil (norm first.1).data
  simp [h1]

/-- C10 witness: `"###"` against the index `["Heart", "Aorta"]` resolves to
the node of `"Heart"`, the first entry. -/
theorem empty_norm_resolves_to_first_witness :
    resolveTarget [("Heart", 1), ("Aorta", 2)] "###" = some 1 :=
  empty_norm_resolves_to_first ("Heart", 1) [("Aorta", 2)] "###"
    (by decide) (by decide) (by decide)

/-! ## C6: queue-and-flush of early highlight requests -/

/-- C6 counterexample: a single-ROI request queued before the asset is ready
is silently dropped when a many-ROI request is also pending at the moment the
ready signal fires: only the many request is applied, and the single request
stays parked forever, contradicting "never silently dropped ... regardless of
whether it was a single-region or a many-region request". -/
theorem queued_single_dropped_cx :
    (brainRun brainInit
        [BrainEv.singleReq singleEx, BrainEv.manyReq manyEx, BrainEv.load]).applied
      = [AppliedReq.many manyEx]
    ∧ (brainRun brainInit
        [BrainEv.singleReq singleEx, BrainEv.manyReq manyEx, BrainEv.load]).pendingSingle
      = some singleEx := by
  exact ⟨rfl, rfl⟩

/-- C6 amended: a request queued while the scene-graph API is unavailable is
applied exactly once when the ready signal fires, *provided no other request
is pending then*; a request is never applied twice (a later ready signal
re-applies nothing); but a later request of the same kind supersedes an
earlier pending one, and a pending many-region request wins over (and drops)
a pending single-region request. -/
theorem queue_flush_amended (d : SingleDetail) (d1 d2 : ManyDetail) :
    (brainRun brainInit [BrainEv.singleReq d, BrainEv.load]).applied
      = [AppliedReq.single d]
    ∧ (brainRun brainInit [BrainEv.manyReq d1, BrainEv.load]).applied
      = [AppliedReq.many d1]
    ∧ (brainRun brainInit [BrainEv.manyReq d1, BrainEv.load, BrainEv.load]).applied
      = [AppliedReq.many d1]
    ∧ (brainRun brainInit [BrainEv.singleReq d, BrainEv.load, BrainEv.load]).applied
      = [AppliedReq.single d]
    ∧ (brainRun brainInit [BrainEv.manyReq d1, BrainEv.manyReq d2, BrainEv.load]).applied
      = [AppliedReq.many d2]
    ∧ (brainRun brainInit [BrainEv.singleReq d, BrainEv.manyReq d1, BrainEv.load]).applied
      = [AppliedReq.many d1] :=
  ⟨rfl, rfl, rfl, rfl, rfl, rfl⟩

/-! ## C5: the mapping loader performs no shape normalization -/

/-- C5 counterexample: the loader stores any successfully parsed document
as-is (no normalization and no shape validation), and the highlight pipeline
reads targets only through `mapping.segments?.[id] ?? []`; a shape (a)
document (RegionId → list of `{target, side?}` records) therefore yields no
raw names at all for a region that explicitly lists a target — it is *not*
normalized into usable target records — while the equivalent shape (b)
document yields them. -/
theorem loader_shapeA_not_normalized_cx :
    loadMapping (Except.ok shapeA) = some shapeA
    ∧ segItems shapeA "1" = Except.ok []
    ∧ segItems shapeB "1" = Except.ok [Json.str "LV"] :=
  ⟨rfl, rfl, rfl⟩

/-- C5 amended: the loader accepts any successfully parsed JSON document
unchanged and reports unavailable only on fetch/parse failure; no shape is
normalized and nothing is rejected at load time.  The target-building loop
then reads `mapping.segments?.[id] ?? []`: a document without a `segments`
field — in particular a shape (a) document — yields no entries for any
region, like an empty table; within a `segments` object, an array entry
yields exactly its elements, a string entry yields its characters as
individual entries, and a non-iterable entry (e.g. a number) makes the loop
throw a TypeError — so non-(b) shapes are not uniformly treated as an empty
table. -/
theorem loader_shape_behavior (e id s : String)
    (j : Json) (fields skvs : List (String × Json)) (items : List Json)
    (q : ℚ) :
    loadMapping (Except.ok j) = some j
    ∧ loadMapping (Except.error e) = none
    ∧ (fields.lookup "segments" = none →
        segItems (Json.obj fields) id = Except.ok [])
    ∧ (fields.lookup "segments" = some (Json.obj skvs) →
        skvs.lookup id = some (Json.arr items) →
        segItems (Json.obj fields) id = Except.ok items)
    ∧ (fields.lookup "segments" = some (Json.obj skvs) →
        skvs.lookup id = some (Json.str s) →
        segItems (Json.obj fields) id
          = Except.ok (s.data.map fun c => Json.str (String.mk [c])))
    ∧ (fields.lookup "segments" = some (Json.obj skvs) →
        skvs.lookup id = some (Json.num q) →
        segItems (Json.obj fields) id
          = Except.error "TypeError: value is not iterable") := by
  have hseg : jsonGet (Json.obj fields) "segments" = fields.lookup "segments" :=
    rfl
  refine ⟨rfl, rfl, ?_, ?_, ?_, ?_⟩
  · intro h
    rw [segItems, segEntries, hseg, h]
    rfl
  · intro h1 h2
    rw [segItems, segEntries, hseg, h1]
    show jsIterate (entryValue (Json.obj skvs) id) = Except.ok items
    rw [entryValue]
    have hid : jsonGet (Json.obj skvs) id = skvs.lookup id := rfl
    rw [hid, h2]
    rfl
  · intro h1 h2
    rw [segItems, segEntries, hseg, h1]
    show jsIterate (entryValue (Json.obj skvs) id) = _
    rw [entryValue]
    have hid : jsonGet (Json.obj skvs) id = skvs.lookup id := rfl
    rw [hid, h2]
    rfl
  · intro h1 h2
    rw [segItems, segEntries, hseg, h1]
    show jsIterate (entryValue (Json.obj skvs) id) = _
    rw [entryValue]
    have hid : jsonGet (Json.obj skvs) id = skvs.lookup id := rfl
    rw [hid, h2]
    rfl

/-- C5 amended witness: the shape (a) document behaves as the empty table,
the shape (b) document yields its authored raw names, a string segment entry
yields its characters, and a numeric segment entry raises a TypeError. -/
theorem loader_shape_behavior_witness :
    segItems shapeA "1" = Except.ok []
    ∧ segItems shapeB "1" = Except.ok [Json.str "LV"]
    ∧ segItems shapeStr "1" = Except.ok [Json.str "X", Json.str "Y"]
    ∧ segItems shapeNum "1" = Except.error "TypeError: value is not iterable" :=
  ⟨(loader_shape_behavior "err" "1" "" Json.null
      [("1", Json.arr [Json.obj [("target", Json.str "LV"),
        ("side", Json.str "L")]])] [] [] 0).2.2.1 rfl,
   (loader_shape_behavior "err" "1" "" Json.null
      [("segments", Json.obj [("1", Json.arr [Json.str "LV"])])]
      [("1", Json.arr [Json.str "LV"])] [Json.str "LV"] 0).2.2.2.1 rfl rfl,
   (loader_shape_behavior "err" "1" "XY" Json.null
      [("segments", Json.obj [("1", Json.str "XY")])]
      [("1", Json.str "XY")] [] 0).2.2.2.2.1 rfl rfl,
   (loader_shape_behavior "err" "1" "" Json.null
      [("segments", Json.obj [("1", Json.num 42)])]
      [("1", Json.num 42)] [] 42).2.2.2.2.2 rfl rfl⟩

/-! ## Lemmas about the Score Selector -/

theorem mem_insertDesc (p x : String × ℚ) (l : List (String × ℚ)) :
    x ∈ insertDesc p l ↔ x = p ∨ x ∈ l := by
  induction l with
  | nil => simp [insertDesc]
  | cons q qs ih =>
    rw [insertDesc]
    by_cases hle : q.2 ≤ p.2
    · rw [if_pos hle]
      simp [List.mem_cons, or_left_comm]
    · rw [if_neg hle]
      simp only [List.mem_cons, ih]
      tauto

theorem mem_sortDesc (x : String × ℚ) (l : List (String × ℚ)) :
    x ∈ sortDesc l ↔ x ∈ l := by
  induction l with
  | nil => simp [sortDesc]
  | cons p ps ih =>
    rw [sortDesc, mem_insertDesc]
    simp [ih]

theorem pairwise_insertDesc (p : String × ℚ) (l : List (String × ℚ))
    (h : l.Pairwise fun a b => b.2 ≤ a.2) :
    (insertDesc p l).Pairwise fun a b => b.2 ≤ a.2 := by
  induction l with
  | nil => simp [insertDesc]
  | cons q qs ih =>
    rw [List.pairwise_cons] at h
    rw [insertDesc]
    by_cases hle : q.2 ≤ p.2
    · rw [if_pos hle]
      refine List.Pairwise.cons ?_ (List.Pairwise.cons h.1 h.2)
      intro x hx
      rcases List.mem_cons.1 hx with rfl | hxs
      · exact hle
      · exact le_trans (h.1 x hxs) hle
    · rw [if_neg hle]
      refine List.Pairwise.cons ?_ (ih h.2)
      intro x hx
      rcases (mem_insertDesc p x qs).1 hx with rfl | hxs
      · exact le_of_lt (not_le.mp hle)
      · exact h.1 x hxs

theorem pairwise_sortDesc (l : List (String × ℚ)) :
    (sortDesc l).Pairwise fun a b => b.2 ≤ a.2 := by
  induction l with
  | nil => simp [sortDesc]
  | cons p ps ih => exact pairwise_insertDesc p (sortDesc ps) ih

theorem mem_numericPairs (scores : ScoreMap) (k : String) (q : ℚ) :
    (k, q) ∈ numericPairs scores ↔ (k, JsVal.num q) ∈ scores := by
  constructor
  · intro h
    rcases List.mem_filterMap.1 h with ⟨a, ha, heq⟩
    rcases a with ⟨k', v⟩
    cases v with
    | num q' =>
      simp only [Option.some.injEq, Prod.mk.injEq] at heq
      rw [← heq.1, ← heq.2]
      exact ha
    | nan => simp at heq
    | other => simp at heq
  · intro h
    exact List.mem_filterMap.2 ⟨(k, JsVal.num q), h, rfl⟩

theorem clamp01_mono {a b : ℚ} (h : a ≤ b) : clamp01 a ≤ clamp01 b :=
  max_le_max le_rfl (min_le_min le_rfl h)

theorem le_clamp01 {t q : ℚ} (ht1 : t ≤ 1) (h : t ≤ q) : t ≤ clamp01 q :=
  calc t = min 1 t := (min_eq_right ht1).symm
    _ ≤ min 1 q := min_le_min le_rfl h
    _ ≤ clamp01 q := le_max_right 0 _

/-! ## C2: the Score Selector contract -/

/-- C2: for every score map, positive `topK`, and threshold `t ∈ [0,1]`, the
selector returns at most `topK` entries, every returned entry has score at
least `t`, entries are sorted descending by score, every returned entry stems
from a numeric (non-NaN) input entry (so NaN and non-number entries never
appear), and the empty score map yields the empty selection. -/
theorem affected_spec (scores : ScoreMap) (k : ℕ) (t : ℚ)
    (hk : 0 < k) (ht0 : 0 ≤ t) (ht1 : t ≤ 1) :
    (affected scores k t).length ≤ k
    ∧ (∀ a ∈ affected scores k t, t ≤ a.score)
    ∧ (affected scores k t).Pairwise (fun a b => b.score ≤ a.score)
    ∧ (∀ a ∈ affected scores k t, ∃ s : ℚ,
        (a.id, JsVal.num s) ∈ scores ∧ a.score = clamp01 s ∧ t ≤ s)
    ∧ affected [] k t = [] := by
  refine ⟨?_, ?_, ?_, ?_, by rw [affected]; simp [numericPairs, sortDesc]⟩
  · rw [affected, List.length_map]
    calc (((sortDesc (numericPairs scores)).take k).filter _).length
        ≤ ((sortDesc (numericPairs scores)).take k).length :=
          List.length_filter_le _ _
      _ ≤ k := by rw [List.length_take]; exact min_le_left k _
  · intro a ha
    rcases List.mem_map.1 ha with ⟨p, hp, rfl⟩
    have hdec := (List.mem_filter.1 hp).2
    exact le_clamp01 ht1 (of_decide_eq_true hdec)
  · have h1 : ((sortDesc (numericPairs scores)).take k).Pairwise
        (fun a b : String × ℚ => b.2 ≤ a.2) :=
      List.Pairwise.sublist (List.take_sublist k _)
        (pairwise_sortDesc (numericPairs scores))
    have h2 : (((sortDesc (numericPairs scores)).take k).filter
        fun p => decide (t ≤ p.2)).Pairwise (fun a b : String × ℚ => b.2 ≤ a.2) :=
      List.Pairwise.sublist (List.filter_sublist _) h1
    exact List.Pairwise.map _ (fun a b hab => clamp01_mono hab) h2
  · intro a ha
    rcases List.mem_map.1 ha with ⟨p, hp, rfl⟩
    have hp1 := (List.mem_filter.1 hp).1
    have hdec := (List.mem_filter.1 hp).2
    have hmem : p ∈ sortDesc (numericPairs scores) := List.mem_of_mem_take hp1
    have hnum : (p.1, p.2) ∈ numericPairs scores := by
      rw [← mem_sortDesc]
      exact hmem
    exact ⟨p.2, (mem_numericPairs scores p.1 p.2).1 hnum, rfl,
      of_decide_eq_true hdec⟩

/-- C2 witness: the spec's own example score map `{A: 0.9, B: 0.5, C: 0.1}`
with `topK = 2`, `threshold = 0.2`. -/
theorem affected_spec_witness :
    (affected [("A", JsVal.num (9/10)), ("B", JsVal.num (5/10)),
        ("C", JsVal.num (1/10))] 2 (2/10)).length ≤ 2
    ∧ (∀ a ∈ affected [("A", JsVal.num (9/10)), ("B", JsVal.num (5/10)),
        ("C", JsVal.num (1/10))] 2 (2/10), (2/10 : ℚ) ≤ a.score)
    ∧ (affected [("A", JsVal.num (9/10)), ("B", JsVal.num (5/10)),
        ("C", JsVal.num (1/10))] 2 (2/10)).Pairwise
        (fun a b => b.score ≤ a.score)
    ∧ (∀ a ∈ affected [("A", JsVal.num (9/10)), ("B", JsVal.num (5/10)),
        ("C", JsVal.num (1/10))] 2 (2/10), ∃ s : ℚ,
        (a.id, JsVal.num s) ∈ [("A", JsVal.num (9/10)), ("B", JsVal.num (5/10)),
          ("C", JsVal.num (1/10))] ∧ a.score = clamp01 s ∧ (2/10 : ℚ) ≤ s)
    ∧ affected [] 2 (2/10) = [] :=
  affected_spec [("A", JsVal.num (9/10)), ("B", JsVal.num (5/10)),
    ("C", JsVal.num (1/10))] 2 (2/10) (by decide) (by norm_num) (by norm_num)

/-! ## C9: ranking and thresholding use raw scores, clamping only the output -/

/-- C9: the sort, the top-K cut and the threshold comparison all see the raw
(unclamped) scores, and only the emitted score is clamped: if the score map
holds an entry with raw score `s > 1` while every other numeric entry is at
most 1, then for any `topK ≥ 1` and any threshold `t ≤ 1` that entry outranks
everything (it is the first selected entry), passes the threshold, and is
emitted with score exactly 1. -/
theorem raw_score_ranks_clamped_output (scores : ScoreMap) (k : ℕ) (t : ℚ)
    (id : String) (s : ℚ)
    (hmem : (id, JsVal.num s) ∈ scores) (hs : 1 < s)
    (hothers : ∀ id' s', (id', JsVal.num s') ∈ scores → id' ≠ id → s' ≤ 1)
    (hk : 1 ≤ k) (ht : t ≤ 1) :
    (affected scores k t).head? = some ⟨id, 1, "AHA" ++ id⟩ := by
  have hnp : (id, s) ∈ sortDesc (numericPairs scores) := by
    rw [mem_sortDesc, mem_numericPairs]
    exact hmem
  rcases List.exists_cons_of_ne_nil (List.ne_nil_of_mem hnp) with ⟨h, tl, heq⟩
  have hpw := pairwise_sortDesc (numericPairs scores)
  rw [heq, List.pairwise_cons] at hpw
  have hsle : s ≤ h.2 := by
    rw [heq] at hnp
    rcases List.mem_cons.1 hnp with hfst | htl
    · rw [← hfst]
    · exact hpw.1 (id, s) htl
  have hh2 : 1 < h.2 := lt_of_lt_of_le hs hsle
  have hhmem : (h.1, JsVal.num h.2) ∈ scores := by
    have : (h.1, h.2) ∈ sortDesc (numericPairs scores) := by
      rw [heq]
      exact List.mem_cons_self h tl
    rw [mem_sortDesc, mem_numericPairs] at this
    exact this
  have hid : h.1 = id := by
    by_contra hne
    exact absurd (hothers h.1 h.2 hhmem hne) (not_le.mpr hh2)
  rcases Nat.exists_eq_add_of_le hk with ⟨k', rfl⟩
  have hclamp : clamp01 h.2 = 1 := by
    rw [clamp01, min_eq_left (le_of_lt hh2)]
    exact max_eq_right zero_le_one
  rw [affected, heq]
  rw [show 1 + k' = k' + 1 from Nat.add_comm 1 k', List.take_succ_cons]
  have hta : t ≤ h.2 := le_trans ht (le_of_lt hh2)
  simp [List.filter_cons, hta, hclamp, hid]

/-- C9 witness: the map `{X: 1.5, B: 0.5}` with `topK = 8`, `threshold =
0.25`: the over-unity raw score ranks first and is emitted clamped to 1. -/
theorem raw_score_ranks_clamped_output_witness :
    (affected [("X", JsVal.num (3/2)), ("B", JsVal.num (5/10))] 8
        (25/100)).head? = some ⟨"X", 1, "AHA" ++ "X"⟩ :=
  raw_score_ranks_clamped_output
    [("X", JsVal.num (3/2)), ("B", JsVal.num (5/10))] 8 (25/100) "X" (3/2)
    (List.mem_cons_self _ _) (by norm_num)
    (by
      intro id' s' h1 h2
      rcases List.mem_cons.1 h1 with heq | h1
      · exact absurd (congrArg Prod.fst heq) (by simpa using h2)
      · rcases List.mem_cons.1 h1 with heq | h1
        · have : s' = 5/10 := by
            have := congrArg Prod.snd heq
            simpa using this
          rw [this]
          norm_num
        · cases h1)
    (by norm_num) (by norm_num)

/-! ## Lemmas about the Target map builder -/

theorem alGet_alSet_same (m : List (String × ℚ)) (k : String) (v : ℚ) :
    alGet (alSet m k v) k = some v := by
  induction m with
  | nil => simp [alGet, alSet]
  | cons p rest ih =>
    rw [alSet]
    by_cases hp : p.1 = k
    · rw [if_pos hp, alGet, if_pos rfl]
    · rw [if_neg hp, alGet, if_neg hp]
      exact ih

theorem alGet_alSet_ne (m : List (String × ℚ)) (k : String) (v : ℚ)
    (k' : String) (h : k ≠ k') : alGet (alSet m k v) k' = alGet m k' := by
  induction m with
  | nil => simp [alGet, alSet, h]
  | cons p rest ih =>
    rw [alSet]
    by_cases hp : p.1 = k
    · rw [if_pos hp, alGet, if_neg h, alGet]
      rw [if_neg (by rw [hp]; exact h)]
    · rw [if_neg hp, alGet, alGet]
      by_cases hp' : p.1 = k'
      · rw [if_pos hp', if_pos hp']
      · rw [if_neg hp', if_neg hp']
        exact ih

theorem alGet_addTargets (score : ℚ) (raws : List String)
    (m : List (String × ℚ)) (name : String) (hname : name ≠ "") :
    alGet (addTargets score raws m) name =
      if raws.any (fun raw => jsTrim raw = name) then
        some (max score ((alGet m name).getD 0))
      else alGet m name := by
  induction raws generalizing m with
  | nil => simp [addTargets]
  | cons raw rest ih =>
    rw [addTargets]
    by_cases hr : jsTrim raw = name
    · rw [if_neg (hr ▸ hname), hr, ih (alSet m name (max score ((alGet m name).getD 0)))]
      rw [alGet_alSet_same]
      have hcond : (raw :: rest).any (fun raw => jsTrim raw = name) = true := by
        simp [List.any_cons, hr]
      rw [if_pos hcond]
      by_cases hrest : rest.any (fun raw => jsTrim raw = name) = true
      · rw [if_pos hrest]
        simp only [Option.getD_some]
        rw [← max_assoc, max_self]
      · rw [if_neg hrest]
    · by_cases hz : jsTrim raw = ""
      · rw [if_pos hz, ih m]
        have : (raw :: rest).any (fun raw => jsTrim raw = name)
            = rest.any (fun raw => jsTrim raw = name) := by
          simp [List.any_cons, hr]
        rw [this]
      · rw [if_neg hz, ih (alSet m (jsTrim raw) (max score ((alGet m (jsTrim raw)).getD 0)))]
        rw [alGet_alSet_ne _ _ _ _ hr]
        have : (raw :: rest).any (fun raw => jsTrim raw = name)
            = rest.any (fun raw => jsTrim raw = name) := by
          simp [List.any_cons, hr]
        rw [this]

theorem alGet_targets_go (mp : Mapping) (aff : List Affected)
    (m : List (String × ℚ)) (name : String) (hname : name ≠ "") :
    alGet (aff.foldl
        (fun m a => addTargets a.score ((mp.segments.lookup a.id).getD []) m) m)
        name
      = (collectScores mp name aff).foldl
          (fun c s => some (max s (c.getD 0))) (alGet m name) := by
  induction aff generalizing m with
  | nil => simp [collectScores]
  | cons a rest ih =>
    rw [List.foldl_cons, ih]
    conv_rhs => rw [collectScores, List.filterMap_cons]
    by_cases hc : ((mp.segments.lookup a.id).getD []).any
        (fun raw => jsTrim raw = name) = true
    · rw [if_pos hc, List.foldl_cons]
      rw [alGet_addTargets _ _ _ _ hname, if_pos hc]
      rfl
    · rw [if_neg hc, alGet_addTargets _ _ _ _ hname, if_neg hc]
      rfl

theorem foldl_maxOpt_some (l : List ℚ) (acc : ℚ) :
    l.foldl (fun c s => some (max s (c.getD 0))) (some acc)
      = some (l.foldl (fun c s => max s c) acc) := by
  induction l generalizing acc with
  | nil => rfl
  | cons x rest ih => simp [List.foldl_cons, ih]

theorem foldl_max_bound (l : List ℚ) (acc : ℚ) :
    acc ≤ l.foldl (fun c s => max s c) acc
    ∧ (∀ x ∈ l, x ≤ l.foldl (fun c s => max s c) acc)
    ∧ (l.foldl (fun c s => max s c) acc = acc
        ∨ l.foldl (fun c s => max s c) acc ∈ l) := by
  induction l generalizing acc with
  | nil => exact ⟨le_rfl, by simp, Or.inl rfl⟩
  | cons x rest ih =>
    have h := ih (max x acc)
    rw [List.foldl_cons]
    refine ⟨le_trans (le_max_right x acc) h.1, ?_, ?_⟩
    · intro y hy
      rcases List.mem_cons.1 hy with rfl | hys
      · exact le_trans (le_max_left y acc) h.1
      · exact h.2.1 y hys
    · rcases h.2.2 with heq | hmem
      · rcases max_choice x acc with hx | ha
        · rw [heq, hx]
          exact Or.inr (List.mem_cons_self x rest)
        · rw [heq, ha]
          exact Or.inl rfl
      · exact Or.inr (List.mem_cons_of_mem x hmem)

theorem mem_collectScores (mp : Mapping) (name : String) (aff : List Affected)
    (x : ℚ) :
    x ∈ collectScores mp name aff ↔
      ∃ a ∈ aff, ((mp.segments.lookup a.id).getD []).any
          (fun raw => jsTrim raw = name) = true ∧ x = a.score := by
  constructor
  · intro h
    rcases List.mem_filterMap.1 h with ⟨a, ha, heq⟩
    by_cases hc : ((mp.segments.lookup a.id).getD []).any
        (fun raw => jsTrim raw = name) = true
    · rw [if_pos hc] at heq
      exact ⟨a, ha, hc, (Option.some.injEq _ _ ▸ heq).symm⟩
    · rw [if_neg hc] at heq
      cases heq
  · intro ⟨a, ha, hc, hx⟩
    refine List.mem_filterMap.2 ⟨a, ha, ?_⟩
    rw [if_pos hc, hx]

theorem contributes_iff (mp : Mapping) (a : Affected) (name : String) :
    contributes mp a name ↔
      name ≠ "" ∧ ((mp.segments.lookup a.id).getD []).any
        (fun raw => jsTrim raw = name) = true := by
  rw [contributes, List.any_eq_true]
  simp

/-! ## C3: max-wins fan-in in the Target map -/

/-- C3: when several selected RegionIds map to the same (nonempty, trimmed)
raw target name, the intensity recorded for that name is the maximum of their
scores: the stored value dominates every contributing score and is itself one
of them, so a higher intensity is never overwritten by a lower one. -/
theorem targets_max_fan_in (mp : Mapping) (aff : List Affected) (name : String)
    (h0 : ∀ a ∈ aff, 0 ≤ a.score)
    (hc : ∃ a ∈ aff, contributes mp a name) :
    ∃ v, alGet (targets aff (some mp)) name = some v
      ∧ (∀ a ∈ aff, contributes mp a name → a.score ≤ v)
      ∧ ∃ a ∈ aff, contributes mp a name ∧ v = a.score := by
  obtain ⟨a0, ha0, hca0⟩ := hc
  have hname : name ≠ "" := hca0.1
  have hkey := alGet_targets_go mp aff [] name hname
  have hmem0 : a0.score ∈ collectScores mp name aff :=
    (mem_collectScores mp name aff a0.score).2
      ⟨a0, ha0, ((contributes_iff mp a0 name).1 hca0).2, rfl⟩
  rcases List.exists_cons_of_ne_nil (List.ne_nil_of_mem hmem0) with ⟨x, rest, hceq⟩
  have hx0 : 0 ≤ x := by
    have hx : x ∈ collectScores mp name aff := by
      rw [hceq]
      exact List.mem_cons_self x rest
    rcases (mem_collectScores mp name aff x).1 hx with ⟨a, ha, _, rfl⟩
    exact h0 a ha
  rw [hceq, List.foldl_cons] at hkey
  have hstep : (some (max x ((alGet ([] : List (String × ℚ)) name).getD 0)))
      = some x := by
    rw [alGet]
    simp [max_eq_left hx0]
  rw [alGet] at hkey
  simp only [Option.getD_none] at hkey
  rw [max_eq_left hx0] at hkey
  rw [foldl_maxOpt_some] at hkey
  refine ⟨rest.foldl (fun c s => max s c) x, hkey, ?_, ?_⟩
  · intro a ha hca
    have hmem : a.score ∈ collectScores mp name aff :=
      (mem_collectScores mp name aff a.score).2
        ⟨a, ha, ((contributes_iff mp a name).1 hca).2, rfl⟩
    rw [hceq] at hmem
    rcases List.mem_cons.1 hmem with heq | hmem
    · rw [heq]
      exact (foldl_max_bound rest x).1
    · exact (foldl_max_bound rest x).2.1 _ hmem
  · have hv : rest.foldl (fun c s => max s c) x ∈ collectScores mp name aff := by
      rw [hceq]
      rcases (foldl_max_bound rest x).2.2 with heq | hmem
      · rw [heq]
        exact List.mem_cons_self x rest
      · exact List.mem_cons_of_mem x hmem
    rcases (mem_collectScores mp name aff _).1 hv with ⟨a, ha, hcond, hval⟩
    exact ⟨a, ha, (contributes_iff mp a name).2 ⟨hname, hcond⟩, hval⟩

/-- C3 witness: the spec's scenario — two RegionIds `"1"` and `"2"` both map
to raw name `"LV"` with scores 0.4 and 0.9; the recorded intensity is 0.9. -/
theorem targets_max_fan_in_witness :
    alGet (targets [⟨"1", 2/5, "AHA1"⟩, ⟨"2", 9/10, "AHA2"⟩]
        (some ⟨[("1", ["LV"]), ("2", ["LV"])]⟩)) "LV" = some (9/10)
    ∧ ∃ v, alGet (targets [⟨"1", 2/5, "AHA1"⟩, ⟨"2", 9/10, "AHA2"⟩]
        (some ⟨[("1", ["LV"]), ("2", ["LV"])]⟩)) "LV" = some v
      ∧ (∀ a ∈ [(⟨"1", 2/5, "AHA1"⟩ : Affected), ⟨"2", 9/10, "AHA2"⟩],
          contributes ⟨[("1", ["LV"]), ("2", ["LV"])]⟩ a "LV" → a.score ≤ v)
      ∧ ∃ a ∈ [(⟨"1", 2/5, "AHA1"⟩ : Affected), ⟨"2", 9/10, "AHA2"⟩],
          contributes ⟨[("1", ["LV"]), ("2", ["LV"])]⟩ a "LV" ∧ v = a.score := by
  constructor
  · have hred : alGet (targets [⟨"1", 2/5, "AHA1"⟩, ⟨"2", 9/10, "AHA2"⟩]
        (some ⟨[("1", ["LV"]), ("2", ["LV"])]⟩)) "LV"
        = some (max (9/10) (max (2/5) 0)) := rfl
    rw [hred, max_eq_left (by norm_num : (0:ℚ) ≤ 2/5),
      max_eq_left (by norm_num : (2:ℚ)/5 ≤ 9/10)]
  · refine targets_max_fan_in ⟨[("1", ["LV"]), ("2", ["LV"])]⟩
      [⟨"1", 2/5, "AHA1"⟩, ⟨"2", 9/10, "AHA2"⟩] "LV" ?_ ?_
    · intro a ha
      rcases List.mem_cons.1 ha with rfl | ha
      · norm_num
      · rcases List.mem_cons.1 ha with rfl | ha
        · norm_num
        · cases ha
    · refine ⟨⟨"1", 2/5, "AHA1"⟩, List.mem_cons_self _ _, (by decide), ?_⟩
      exact ⟨"LV", by decide, by decide⟩

end XaiAr
